import Mathlib

/-!
Verification of the dnflow batch-analysis pipeline (summarize.py) against its
design specification.  The Python source is shallowly embedded: pure helper
functions become Lean functions on Nat/Int/String, task bodies become pure
functions from their (already-read) inputs to the artifact they write, and
calls that can raise a Python exception are modelled with `Except`/`Option`.
Library calls (imagehash, networkx, requests, luigi's target-existence check)
are embedded by their documented input/output behaviour.

The file is organised as definitions first, theorems second.
-/

/-! # Definitions -/

/-! ## get_block_size (summarize.py lines 71-86) -/

/-- Mathematical embedding of Python `math.ceil(math.log10 n)` for `n ≥ 1`:
the least `k` with `n ≤ 10 ^ k`, computed as the first element of
`0, 1, ..., n` satisfying the bound (such a `k ≤ n` always exists since
`n < 10 ^ n`). -/
def ceilLog10 (n : Nat) : Nat :=
  (((List.range (n + 1)).filter (fun k => decide (n ≤ 10 ^ k))).headD 0)

/-- Embeds `get_block_size(n, d, default)`.  The Python body is
`if n <= 0: return default`; `r = ceil(log10 n) * d`; `if r == 0: return
default`; `block_size = int(n / r)` (truncation of a division of positive
numbers, i.e. floor division); returned if positive, else `default`.  The
source always uses the default `default=100`. -/
def get_block_size (n : Int) (d : Nat) (dflt : Nat) : Nat :=
  if n ≤ 0 then dflt
  else if ceilLog10 n.toNat * d = 0 then dflt
  else if 0 < n.toNat / (ceilLog10 n.toNat * d) then
    n.toNat / (ceilLog10 n.toNat * d)
  else dflt

/-! ## EventfulTask.update_job (summarize.py lines 91-117) -/

/-- Embeds `EventfulTask.update_job`.  The HTTP transport is modelled by the
outcome of `requests.put`: `some code` is a delivered response with that
status code, `none` is a transport failure (unreachable tracker), which
`requests.put` raises as a `ConnectionError`.  The Python body contains no
`try/except`, so on a transport failure the exception propagates to the
caller (`Except.error`); a delivered response is absorbed into the boolean
`r.status_code in [200, 302]`. -/
def update_job (put_response : Option Nat) : Except String Bool :=
  match put_response with
  | none => Except.error "ConnectionError"
  | some code => Except.ok (code == 200 || code == 302)

/-! ## MatchMedia.run (summarize.py lines 399-450): the media clusterer -/

/-- Lexicographic (codepoint-wise) comparison of character lists: the
semantics of Python string comparison used by `sorted`. -/
def lexLeChars : List Char → List Char → Bool
  | [], _ => true
  | _ :: _, [] => false
  | a :: x, b :: y =>
    if a < b then true
    else if a = b then lexLeChars x y
    else false

/-- Lexicographic order on filenames (Python `str` comparison). -/
def lexLe (a b : String) : Bool := lexLeChars a.data b.data

/-- A media item's fingerprint set: the three perceptual hashes the source
computes per image (`imagehash.average_hash`, `imagehash.dhash`,
`imagehash.phash`), each a fixed-length bit code (8x8 = 64 bits). -/
structure MediaHashes where
  ahash : List Bool
  dhash : List Bool
  phash : List Bool

/-- Well-formedness: imagehash produces 64-bit codes for all three hashes. -/
def MediaHashes.wf (h : MediaHashes) : Prop :=
  h.ahash.length = 64 ∧ h.dhash.length = 64 ∧ h.phash.length = 64

/-- The Hamming distance of two bit codes: the number of positions where the
codes differ.  This is the documented meaning of `h1 - h2` on imagehash
values. -/
def hammingDistance : List Bool → List Bool → Nat
  | a :: x, b :: y => (if a = b then 0 else 1) + hammingDistance x y
  | _, _ => 0

/-- Embeds `sumhash = sum([ahash - f2.ahash, dhash - f2.dhash, phash - f2.phash])`:
the combined distance of two media items. -/
def sumhash (h1 h2 : MediaHashes) : Nat :=
  hammingDistance h1.ahash h2.ahash + hammingDistance h1.dhash h2.dhash +
    hammingDistance h1.phash h2.phash

/-- Embeds `files = sorted(os.listdir('data/%s/media' % date_path))`: the
directory listing is processed in stable lexicographic order.  (Insertion
sort is a stable sort, so on a directory listing — whose names are distinct —
it produces the same list as Python's `sorted`.) -/
def matchMediaFiles (listing : List String) : List String :=
  listing.insertionSort (fun a b => lexLe a b = true)

/-- Embeds the pairwise loop of `MatchMedia.run`: for every `i` and every
`j < i`, the edge `(files[i], files[j])` is added to the similarity graph
exactly when the combined distance is at or below the hard-coded threshold
40.  `hashOf` abstracts the per-file hash computation
(`imagehash.*(Image.open(fn))`). -/
def matchMediaEdges (files : List String) (hashOf : String → MediaHashes) :
    List (String × String) :=
  (List.range files.length).flatMap (fun i =>
    (List.range i).filterMap (fun j =>
      if sumhash (hashOf (files.getD i "")) (hashOf (files.getD j "")) ≤ 40 then
        some (files.getD i "", files.getD j "")
      else none))

/-- The nodes of the similarity graph: exactly the endpoints of its edges
(networkx `Graph.add_edge` creates nodes only for items that gained an
edge). -/
def nodesOf (edges : List (String × String)) : List String :=
  (edges.flatMap (fun e => [e.1, e.2])).dedup

/-- Undirected adjacency in the edge list. -/
def adjacent (edges : List (String × String)) (a b : String) : Bool :=
  edges.any (fun e => (e.1 == a && e.2 == b) || (e.1 == b && e.2 == a))

/-- One expansion step of breadth-first reachability: add every node
adjacent to the current set. -/
def reachStep (edges : List (String × String)) (s : List String) : List String :=
  s ++ (nodesOf edges).filter (fun b => s.any (fun a => adjacent edges a b))

/-- All nodes reachable from `x` in the similarity graph, computed by
iterating `reachStep` as many times as there are nodes (enough for any
path). -/
def reachable (edges : List (String × String)) (x : String) : List String :=
  Nat.iterate (reachStep edges) (nodesOf edges).length [x]

/-- The connected component of `x`, listed in graph-node order (so two nodes
of one component yield the same list). -/
def componentOf (edges : List (String × String)) (x : String) : List String :=
  (nodesOf edges).filter (fun y => decide (y ∈ reachable edges x))

/-- Embeds `list(nx.connected_components(g))` followed by the set-to-list
conversion: the emitted groups are the connected components of the
similarity graph. -/
def mediaComponents (edges : List (String × String)) : List (List String) :=
  ((nodesOf edges).map (componentOf edges)).dedup

/-- Embeds the whole of `MatchMedia.run`.  `readImage f` models
`Image.open(fn)` plus hashing: `none` means the file is corrupt/unreadable,
in which case `Image.open` raises (`PIL.UnidentifiedImageError` / `OSError`).
The loop body contains no exception handler, so an unreadable file aborts
the task before any group is written (`Except.error`); otherwise the
connected components of the similarity graph are written out. -/
def matchMediaRun (listing : List String) (readImage : String → Option MediaHashes) :
    Except String (List (List String)) :=
  let files := matchMediaFiles listing
  match files.mapM readImage with
  | none => Except.error "UnidentifiedImageError"
  | some _ =>
      Except.ok (mediaComponents
        (matchMediaEdges files (fun f => (readImage f).getD ⟨[], [], []⟩)))

/-! ### Concrete media inputs used by witnesses and counterexamples -/

/-- All-zero 64-bit code. -/
def zeros64 : List Bool := List.replicate 64 false

/-- Item A of the transitivity example: all three hashes all-zero. -/
def hA4 : MediaHashes := ⟨zeros64, zeros64, zeros64⟩

/-- Item B: average hash differing from A in exactly 30 bit positions. -/
def hB4 : MediaHashes :=
  ⟨List.replicate 30 true ++ List.replicate 34 false, zeros64, zeros64⟩

/-- Item C: average hash differing from A in 60 positions and from B in
30. -/
def hC4 : MediaHashes :=
  ⟨List.replicate 60 true ++ List.replicate 4 false, zeros64, zeros64⟩

/-- Hash oracle for the three-item example. -/
def hashOf4 : String → MediaHashes := fun f =>
  if f = "a.jpg" then hA4 else if f = "b.jpg" then hB4 else hC4

/-- A media directory of ten files. -/
def mediaListing10 : List String :=
  ["f0", "f1", "f2", "f3", "f4", "f5", "f6", "f7", "f8", "f9"]

/-- The same directory without the corrupt file. -/
def mediaListing9 : List String :=
  ["f0", "f1", "f2", "f3", "f4", "f6", "f7", "f8", "f9"]

/-- Image reader where `f5` is corrupt (unreadable) and all other files are
valid identical images. -/
def readImage10 : String → Option MediaHashes := fun f =>
  if f = "f5" then none else some ⟨zeros64, zeros64, zeros64⟩

/-! ## FetchTweets (summarize.py lines 142-171) -/

/-- One ingested record.  `raw` stands for the record's JSON serialization
(what `json.dumps(tweet)` produces), `lang` for its language field,
`id_str`/`retweet_count`/`retweeted_status_id` for the fields used by
`CountRetweets` (the `retweeted_status_id` is `some` when the record has a
`retweeted_status`). -/
structure Tweet where
  raw : String
  lang : String
  id_str : String
  retweet_count : Nat
  retweeted_status_id : Option String

/-- Embeds the write loop of `FetchTweets.run`: `i` counts records, the loop
breaks as soon as `i > count`, otherwise `json.dumps(tweet)` is written as
one line.  The configured language (`lang = self.search['lang']`) is read by
the source but never applied to any record.  The progress `update_job` call
is modelled as a no-op. -/
def fetchTweetsLoop (count : Int) : Int → List Tweet → List String
  | _, [] => []
  | i, t :: ts =>
    if i + 1 > count then []
    else t.raw :: fetchTweetsLoop count (i + 1) ts

/-- Embeds `FetchTweets.run` on an already-fetched search stream: the lines
of the `tweets.json` Target it writes. -/
def fetchTweetsRun (lang : String) (count : Int) (stream : List Tweet) : List String :=
  fetchTweetsLoop count 0 stream

/-- A concrete non-English record (its `lang` field is `"fr"`). -/
def twFr : Tweet :=
  { raw := "tweet-fr-json", lang := "fr", id_str := "1", retweet_count := 0,
    retweeted_status_id := none }

/-! ## CountRetweets (summarize.py lines 669-726) -/

/-- One retained entry of the `retweets` list in `CountRetweets.run`. -/
structure Retweet where
  id : String
  count : Nat

/-- Embeds `bisect.insort_right(retweets, Retweet(id, count))` under the
reversed `__lt__` (`self.count > other.count`): insert before the first
entry with a strictly smaller count, i.e. keep the list sorted by
descending count, inserting after entries of equal count. -/
def insortRight : List Retweet → Retweet → List Retweet
  | [], x => [x]
  | y :: ys, x => if y.count < x.count then x :: y :: ys else y :: insortRight ys x

/-- Embeds one iteration of the record loop of `CountRetweets.run`.  The
state is the pair (`retweets` list, `retweet_ids` set, the set modelled as a
list of ids).  Records with `retweet_count == 0` and duplicate tweet ids are
skipped; otherwise the entry is insorted, its id added, and if the list now
exceeds 100 entries the last (lowest-count) entry is popped and its id
removed. -/
def countRetweetsStep (st : List Retweet × List String) (tw : Tweet) :
    List Retweet × List String :=
  if tw.retweet_count = 0 then st
  else
    let tweet_id := tw.retweeted_status_id.getD tw.id_str
    if tweet_id ∈ st.2 then st
    else
      let retweets := insortRight st.1 ⟨tweet_id, tw.retweet_count⟩
      let ids := tweet_id :: st.2
      if 100 < retweets.length then
        (retweets.dropLast, ids.erase ((retweets.getLastD ⟨"", 0⟩).id))
      else (retweets, ids)

/-- The final state of `CountRetweets.run` after folding over the input
records. -/
def countRetweetsState (tweets : List Tweet) : List Retweet × List String :=
  tweets.foldl countRetweetsStep ([], [])

/-- The data rows of the `retweets.csv` artifact, written in list order as
(`tweet_id`, `count`). -/
def countRetweetsRows (tweets : List Tweet) : List (String × Nat) :=
  (countRetweetsState tweets).1.map (fun r => (r.id, r.count))

/-- The loop invariant of `CountRetweets.run`: at most 100 retained entries,
pairwise-distinct tweet ids, sorted by descending retweet count, and every
retained id is registered in the id set. -/
def RetweetInv (st : List Retweet × List String) : Prop :=
  st.1.length ≤ 100 ∧ (st.1.map Retweet.id).Nodup ∧
    st.1.Pairwise (fun a b => b.count ≤ a.count) ∧ ∀ r ∈ st.1, r.id ∈ st.2

/-! ## RunFlow and the executor (summarize.py lines 774-810) -/

/-- A task of the flow: its luigi task family and the locator of the Target
its `output()` declares.  Both are pure functions of the task's parameters
(the shared `search` dictionary, notably `date_path`). -/
structure TaskSpec where
  task_family : String
  out : String

/-- The tasks reached from `RunFlow.requires` for one `date_path`, in an
execution order compatible with the requires-graph (each task's
dependencies precede it).  The locators are the ones computed by the
sources' `output()` methods; `PopulateRedis`'s redis marker target (keyed by
`update_id = date_path`) is written `redis:<date_path>`. -/
def flowPlan (dp : String) : List TaskSpec :=
  [⟨"FetchTweets", "data/" ++ dp ++ "/tweets.json"⟩,
   ⟨"CountHashtags", "data/" ++ dp ++ "/count-hashtags.csv"⟩,
   ⟨"SummaryJSON", "data/" ++ dp ++ "/summary.json"⟩,
   ⟨"EdgelistHashtags", "data/" ++ dp ++ "/edgelist-hashtags.csv"⟩,
   ⟨"CountUrls", "data/" ++ dp ++ "/count-urls.csv"⟩,
   ⟨"CountDomains", "data/" ++ dp ++ "/count-domains.csv"⟩,
   ⟨"CountMentions", "data/" ++ dp ++ "/count-mentions.csv"⟩,
   ⟨"CountFollowers", "data/" ++ dp ++ "/count-followers.csv"⟩,
   ⟨"CountRetweets", "data/" ++ dp ++ "/retweets.csv"⟩,
   ⟨"FollowRatio", "data/" ++ dp ++ "/follow-ratio.csv"⟩,
   ⟨"EdgelistMentions", "data/" ++ dp ++ "/edgelist-mentions.csv"⟩,
   ⟨"CountMedia", "data/" ++ dp ++ "/count-media.csv"⟩,
   ⟨"FetchMedia", "data/" ++ dp ++ "/media-checksums-md5.txt"⟩,
   ⟨"MatchMedia", "data/" ++ dp ++ "/media-graph.json"⟩,
   ⟨"PopulateRedis", "redis:" ++ dp⟩,
   ⟨"ExtractTweetIds", "data/" ++ dp ++ "/tweet-ids.txt"⟩,
   ⟨"CreateCsv", "data/" ++ dp ++ "/tweets.csv"⟩,
   ⟨"Sampler", "data/" ++ dp ++ "/sample.csv"⟩,
   ⟨"BagIt", "data/" ++ dp ++ "/" ++ dp ++ ".zip"⟩]

/-- Embeds the luigi executor semantics over one plan: the filesystem state
is the set of existing Target locators; a task whose Target already exists
is skipped (its completeness check, `LocalTarget.exists`, finds it), and
otherwise its body runs and materializes exactly its Target.  Returns the
final filesystem state and how many task bodies executed. -/
def runPlan (fs : List String) : List TaskSpec → List String × Nat
  | [] => (fs, 0)
  | t :: ts =>
    if t.out ∈ fs then runPlan fs ts
    else ((runPlan (t.out :: fs) ts).1, (runPlan (t.out :: fs) ts).2 + 1)

/-! # Theorems -/

/-! ## get_block_size -/

theorem ceilLog10_le_pow (n : Nat) : n ≤ 10 ^ ceilLog10 n := by
  have hmem : n ∈ (List.range (n + 1)).filter (fun k => decide (n ≤ 10 ^ k)) := by
    rw [List.mem_filter]
    refine ⟨List.mem_range.mpr (Nat.lt_succ_self n), ?_⟩
    exact decide_eq_true_eq.mpr (Nat.le_of_lt (Nat.lt_pow_self (by norm_num) n))
  obtain ⟨a, t, hL⟩ := List.exists_cons_of_ne_nil (List.ne_nil_of_mem hmem)
  have ha : a ∈ (List.range (n + 1)).filter (fun k => decide (n ≤ 10 ^ k)) := by
    rw [hL]; exact List.mem_cons_self a t
  have hpa : n ≤ 10 ^ a := decide_eq_true_eq.mp (List.mem_filter.mp ha).2
  unfold ceilLog10
  rw [hL]
  simpa using hpa

theorem ceilLog10_pos (n : Nat) (hn : 2 ≤ n) : 1 ≤ ceilLog10 n := by
  by_contra h
  have h0 : ceilLog10 n = 0 := by omega
  have := ceilLog10_le_pow n
  rw [h0] at this
  simp at this
  omega

theorem get_block_size_natCast (n d dflt : Nat) (h : 1 ≤ n) :
    get_block_size (n : Int) d dflt =
      if ceilLog10 n * d = 0 then dflt
      else if 0 < n / (ceilLog10 n * d) then n / (ceilLog10 n * d)
      else dflt := by
  have hx : ¬ ((n : Int) ≤ 0) := by
    simp only [not_le]
    exact_mod_cast h
  rw [get_block_size, if_neg hx, Int.toNat_natCast]

/-- C9: `get_block_size` is strictly positive on every integer input `n`
(including `n = 0`, `n = 1` and negative `n`) and every dampening `d ≥ 1`,
so the `% update_block_size` guards in the task bodies never divide by
zero. -/
theorem get_block_size_pos (n : Int) (d : Nat) (hd : 1 ≤ d) :
    0 < get_block_size n d 100 := by
  rw [get_block_size]
  split
  · decide
  · split
    · decide
    · split
      · assumption
      · decide

/-- Witness for `get_block_size_pos` at concrete inputs. -/
theorem get_block_size_pos_witness :
    (1 ≤ 1 ∧ 0 < get_block_size (-3) 1 100) ∧
      (1 ≤ 5 ∧ 0 < get_block_size 0 5 100) ∧ (1 ≤ 5 ∧ 0 < get_block_size 1 5 100) :=
  ⟨⟨by decide, get_block_size_pos (-3) 1 (by decide)⟩,
   ⟨by decide, get_block_size_pos 0 5 (by decide)⟩,
   ⟨by decide, get_block_size_pos 1 5 (by decide)⟩⟩

/-- C8 counterexample: with the dampening value 5 used by the source, the
progress-batch size computed for 11 items (namely 1) is smaller than the one
computed for 10 items (namely 2), so the batch size is not monotone in the
item count.  (The drop happens at every decade boundary, where
`ceil(log10 n)` steps up.) -/
theorem get_block_size_not_monotone :
    10 < 11 ∧ get_block_size 10 5 100 = 2 ∧ get_block_size 11 5 100 = 1 ∧
      ¬ get_block_size 10 5 100 ≤ get_block_size 11 5 100 := by decide

theorem div_twice_bound (n r : Nat) (hr : 0 < r) (hq : 0 < n / r) :
    n ≤ 2 * (r * (n / r)) := by
  have hmod : r * (n / r) + n % r = n := Nat.div_add_mod n r
  have hlt : n % r < r := Nat.mod_lt n hr
  have h2 : r ≤ r * (n / r) := Nat.le_mul_of_pos_right r hq
  omega

/-- C8 (amended): the logarithmic-frequency half of the claim.  For every
item count `n ≥ 2` and dampening `d ≥ 1` the number of progress updates,
`n / block_size`, is at most `2 * d * ⌈log10 n⌉`: formally
`n ≤ 2 * d * ceilLog10 n * get_block_size n d 100`, so update frequency
grows logarithmically in `n` (monotonicity of the batch size itself fails,
see `get_block_size_not_monotone`). -/
theorem get_block_size_log_updates (n d : Nat) (hn : 2 ≤ n) (hd : 1 ≤ d) :
    n ≤ 2 * d * ceilLog10 n * get_block_size (n : Int) d 100 := by
  have hc : 1 ≤ ceilLog10 n := ceilLog10_pos n hn
  have hr : 0 < ceilLog10 n * d := Nat.mul_pos (by omega) (by omega)
  rw [get_block_size_natCast n d 100 (by omega)]
  rw [if_neg (by omega)]
  by_cases hq : 0 < n / (ceilLog10 n * d)
  · rw [if_pos hq]
    calc n ≤ 2 * ((ceilLog10 n * d) * (n / (ceilLog10 n * d))) :=
          div_twice_bound n (ceilLog10 n * d) hr hq
      _ = 2 * d * ceilLog10 n * (n / (ceilLog10 n * d)) := by ring
  · rw [if_neg hq]
    have hmod : (ceilLog10 n * d) * (n / (ceilLog10 n * d)) + n % (ceilLog10 n * d) = n :=
      Nat.div_add_mod n (ceilLog10 n * d)
    have hlt : n % (ceilLog10 n * d) < ceilLog10 n * d := Nat.mod_lt n hr
    have hq0 : n / (ceilLog10 n * d) = 0 := Nat.le_zero.mp (Nat.not_lt.mp hq)
    rw [hq0, Nat.mul_zero, Nat.zero_add] at hmod
    have hnr : n < ceilLog10 n * d := by rw [hmod] at hlt; exact hlt
    have h4 : ceilLog10 n * d ≤ 2 * d * ceilLog10 n * 100 := by
      have he : 2 * d * ceilLog10 n * 100 = (ceilLog10 n * d) * 200 := by ring
      rw [he]
      exact Nat.le_mul_of_pos_right _ (by norm_num)
    omega

/-- Witness for `get_block_size_log_updates` at `n = 10`, `d = 1`. -/
theorem get_block_size_log_updates_witness :
    2 ≤ 10 ∧ 1 ≤ 1 ∧ 10 ≤ 2 * 1 * ceilLog10 10 * get_block_size (10 : Int) 1 100 :=
  ⟨by decide, by decide, get_block_size_log_updates 10 1 (by decide) (by decide)⟩

/-! ## update_job -/

/-- C3: a delivered non-2xx/non-redirect response is absorbed locally as the
boolean `False` (and 200/302 as `True`), but an unreachable tracker endpoint
is NOT absorbed: `requests.put` raises and `update_job` has no handler, so
the error propagates into the calling task body. -/
theorem update_job_behaviour :
    update_job (some 200) = Except.ok true ∧
      update_job (some 302) = Except.ok true ∧
      update_job (some 404) = Except.ok false ∧
      update_job (some 201) = Except.ok false ∧
      update_job none = Except.error "ConnectionError" :=
  ⟨rfl, rfl, rfl, rfl, rfl⟩

/-! ## Media clusterer: Hamming distance facts -/

theorem hammingDistance_nil (z : List Bool) : hammingDistance [] z = 0 := rfl

theorem hammingDistance_triangle (x y z : List Bool) (hxy : y.length = x.length)
    (hxz : z.length = x.length) :
    hammingDistance x z ≤ hammingDistance x y + hammingDistance y z := by
  induction x generalizing y z with
  | nil =>
    rw [List.length_eq_zero.mp hxz, hammingDistance_nil]
    exact Nat.zero_le _
  | cons a x ih =>
    cases y with
    | nil => simp at hxy
    | cons b y =>
      cases z with
      | nil => simp at hxz
      | cons c z =>
        have ih2 := ih y z (by simpa using hxy) (by simpa using hxz)
        have hhead : (if a = c then 0 else 1) ≤
            (if a = b then 0 else 1) + (if b = c then 0 else 1) := by
          by_cases h1 : a = b
          · subst h1
            by_cases h2 : a = c <;> simp [h2]
          · by_cases h3 : a = c <;> simp [h1, h3]
        calc hammingDistance (a :: x) (c :: z)
            = (if a = c then 0 else 1) + hammingDistance x z := rfl
          _ ≤ ((if a = b then 0 else 1) + (if b = c then 0 else 1)) +
                (hammingDistance x y + hammingDistance y z) := Nat.add_le_add hhead ih2
          _ = ((if a = b then 0 else 1) + hammingDistance x y) +
                ((if b = c then 0 else 1) + hammingDistance y z) := by ring
          _ = hammingDistance (a :: x) (b :: y) + hammingDistance (b :: y) (c :: z) := rfl

theorem sumhash_triangle (hA hB hC : MediaHashes)
    (hwA : hA.wf) (hwB : hB.wf) (hwC : hC.wf) :
    sumhash hA hC ≤ sumhash hA hB + sumhash hB hC := by
  obtain ⟨a1, a2, a3⟩ := hwA
  obtain ⟨b1, b2, b3⟩ := hwB
  obtain ⟨c1, c2, c3⟩ := hwC
  have t1 := hammingDistance_triangle hA.ahash hB.ahash hC.ahash (by omega) (by omega)
  have t2 := hammingDistance_triangle hA.dhash hB.dhash hC.dhash (by omega) (by omega)
  have t3 := hammingDistance_triangle hA.phash hB.phash hC.phash (by omega) (by omega)
  unfold sumhash
  omega

/-! ## Media clusterer: the lexicographic comparator is total and transitive -/

theorem lexLeChars_total (x y : List Char) :
    lexLeChars x y = true ∨ lexLeChars y x = true := by
  induction x generalizing y with
  | nil => left; rfl
  | cons a x ih =>
    cases y with
    | nil => right; rfl
    | cons b y =>
      rcases lt_trichotomy a b with h | h | h
      · left; simp [lexLeChars, h]
      · subst h
        rcases ih y with h2 | h2
        · left; simp [lexLeChars, lt_irrefl, h2]
        · right; simp [lexLeChars, lt_irrefl, h2]
      · right; simp [lexLeChars, h]

theorem lexLeChars_trans (x y z : List Char) (h1 : lexLeChars x y = true)
    (h2 : lexLeChars y z = true) : lexLeChars x z = true := by
  induction x generalizing y z with
  | nil => rfl
  | cons a x ih =>
    cases y with
    | nil => simp [lexLeChars] at h1
    | cons b y =>
      cases z with
      | nil => simp [lexLeChars] at h2
      | cons c z =>
        by_cases hab : a < b
        · by_cases hbc : b < c
          · have hac : a < c := lt_trans hab hbc
            simp [lexLeChars, hac]
          · by_cases hbc2 : b = c
            · subst hbc2
              simp [lexLeChars, hab]
            · simp [lexLeChars, hbc, hbc2] at h2
        · by_cases hab2 : a = b
          · subst hab2
            have h1t : lexLeChars x y = true := by
              simpa [lexLeChars, lt_irrefl] using h1
            by_cases hac : a < c
            · simp [lexLeChars, hac]
            · by_cases hac2 : a = c
              · subst hac2
                have h2t : lexLeChars y z = true := by
                  simpa [lexLeChars, lt_irrefl] using h2
                simp [lexLeChars, lt_irrefl]
                exact ih y z h1t h2t
              · simp [lexLeChars, hac, hac2] at h2
          · simp [lexLeChars, hab, hab2] at h1

/-! ## Media clusterer: edge-set characterization -/

theorem mem_matchMediaEdges (files : List String) (hashOf : String → MediaHashes)
    (e : String × String) :
    e ∈ matchMediaEdges files hashOf ↔
      ∃ i j, i < files.length ∧ j < i ∧
        sumhash (hashOf (files.getD i "")) (hashOf (files.getD j "")) ≤ 40 ∧
        e = (files.getD i "", files.getD j "") := by
  unfold matchMediaEdges
  rw [List.mem_flatMap]
  constructor
  · rintro ⟨i, hi, hmem⟩
    rw [List.mem_range] at hi
    rw [List.mem_filterMap] at hmem
    obtain ⟨j, hj, hsome⟩ := hmem
    rw [List.mem_range] at hj
    by_cases hc : sumhash (hashOf (files.getD i "")) (hashOf (files.getD j "")) ≤ 40
    · rw [if_pos hc] at hsome
      exact ⟨i, j, hi, hj, hc, (Option.some_inj.mp hsome).symm⟩
    · rw [if_neg hc] at hsome
      cases hsome
  · rintro ⟨i, j, hi, hj, hc, he⟩
    refine ⟨i, List.mem_range.mpr hi, ?_⟩
    rw [List.mem_filterMap]
    refine ⟨j, List.mem_range.mpr hj, ?_⟩
    rw [if_pos hc, he]

theorem getD_inj (l : List String) (hnd : l.Nodup) {i j : Nat} (hi : i < l.length)
    (hj : j < l.length) (hEq : l.getD i "" = l.getD j "") : i = j := by
  rw [List.getD_eq_getElem l "" hi, List.getD_eq_getElem l "" hj] at hEq
  have h1 : l.get ⟨i, hi⟩ = l.get ⟨j, hj⟩ := hEq
  have h2 : (⟨i, hi⟩ : Fin l.length) = ⟨j, hj⟩ := (List.Nodup.get_inj_iff hnd).mp h1
  exact congrArg Fin.val h2

theorem matchMediaEdges_ne (files : List String) (hashOf : String → MediaHashes)
    (hnd : files.Nodup) : ∀ e ∈ matchMediaEdges files hashOf, e.1 ≠ e.2 := by
  intro e he
  rw [mem_matchMediaEdges] at he
  obtain ⟨i, j, hi, hj, _, he⟩ := he
  subst he
  intro hEq
  have := getD_inj files hnd hi (by omega) hEq
  omega

/-! ## Media clusterer: nodes, reachability, components -/

theorem mem_nodesOf (edges : List (String × String)) (x : String) :
    x ∈ nodesOf edges ↔ ∃ e ∈ edges, x = e.1 ∨ x = e.2 := by
  unfold nodesOf
  rw [List.mem_dedup, List.mem_flatMap]
  constructor
  · rintro ⟨e, he, hx⟩
    rcases List.mem_cons.mp hx with h | h
    · exact ⟨e, he, Or.inl h⟩
    · exact ⟨e, he, Or.inr (List.mem_singleton.mp h)⟩
  · rintro ⟨e, he, h | h⟩
    · exact ⟨e, he, h ▸ List.mem_cons_self _ _⟩
    · exact ⟨e, he, h ▸ List.mem_cons_of_mem _ (List.mem_singleton.mpr rfl)⟩

theorem subset_reachStep (edges : List (String × String)) (s : List String) :
    s ⊆ reachStep edges s :=
  fun _ hx => List.mem_append_left _ hx

theorem mem_iterate_reachStep (edges : List (String × String)) (n : Nat)
    (s : List String) (x : String) (hx : x ∈ s) :
    x ∈ Nat.iterate (reachStep edges) n s := by
  induction n generalizing s with
  | zero => exact hx
  | succ n ih =>
    rw [Function.iterate_succ_apply]
    exact ih _ (subset_reachStep edges s hx)

theorem mem_reachable_self (edges : List (String × String)) (x : String) :
    x ∈ reachable edges x :=
  mem_iterate_reachStep edges _ [x] x (List.mem_singleton.mpr rfl)

theorem neighbor_mem_reachable (edges : List (String × String)) (x y : String)
    (hy : y ∈ nodesOf edges) (hadj : adjacent edges x y = true)
    (hfuel : 1 ≤ (nodesOf edges).length) : y ∈ reachable edges x := by
  unfold reachable
  obtain ⟨m, hm⟩ : ∃ m, (nodesOf edges).length = m + 1 :=
    ⟨(nodesOf edges).length - 1, by omega⟩
  rw [hm, Function.iterate_succ_apply]
  apply mem_iterate_reachStep
  apply List.mem_append_right
  rw [List.mem_filter]
  refine ⟨hy, ?_⟩
  rw [List.any_eq_true]
  exact ⟨x, List.mem_singleton.mpr rfl, hadj⟩

theorem mem_mediaComponents (edges : List (String × String)) (g : List String) :
    g ∈ mediaComponents edges ↔ ∃ x ∈ nodesOf edges, g = componentOf edges x := by
  unfold mediaComponents
  rw [List.mem_dedup, List.mem_map]
  constructor
  · rintro ⟨x, hx, hg⟩
    exact ⟨x, hx, hg.symm⟩
  · rintro ⟨x, hx, hg⟩
    exact ⟨x, hx, hg.symm⟩

theorem componentOf_subset (edges : List (String × String)) (x : String) :
    componentOf edges x ⊆ nodesOf edges :=
  fun _ hy => (List.mem_filter.mp hy).1

theorem mem_componentOf_self (edges : List (String × String)) (x : String)
    (hx : x ∈ nodesOf edges) : x ∈ componentOf edges x := by
  unfold componentOf
  rw [List.mem_filter]
  exact ⟨hx, decide_eq_true_eq.mpr (mem_reachable_self edges x)⟩

theorem adjacent_of_mem (edges : List (String × String)) (e : String × String)
    (he : e ∈ edges) :
    adjacent edges e.1 e.2 = true ∧ adjacent edges e.2 e.1 = true := by
  unfold adjacent
  constructor <;> rw [List.any_eq_true] <;> exact ⟨e, he, by simp⟩

theorem two_le_length_of_two_mem {g : List String} {x y : String}
    (hx : x ∈ g) (hy : y ∈ g) (hxy : x ≠ y) : 2 ≤ g.length := by
  match g with
  | [] => cases hx
  | [z] =>
    rw [List.mem_singleton] at hx hy
    exact absurd (hx.trans hy.symm) hxy
  | a :: b :: t =>
    simp only [List.length_cons]
    omega

/-- C6: in the emitted grouping, every group has at least two members, and
an item with no edge at-or-under the threshold to any other item (i.e. one
that is an endpoint of no similarity edge) appears in no emitted group —
singletons are never emitted. -/
theorem matchMedia_no_singletons (listing : List String)
    (hashOf : String → MediaHashes) (hnd : listing.Nodup) :
    (∀ g ∈ mediaComponents (matchMediaEdges (matchMediaFiles listing) hashOf),
        2 ≤ g.length) ∧
      ∀ x, (∀ e ∈ matchMediaEdges (matchMediaFiles listing) hashOf,
              e.1 ≠ x ∧ e.2 ≠ x) →
        ∀ g ∈ mediaComponents (matchMediaEdges (matchMediaFiles listing) hashOf),
          x ∉ g := by
  have hndf : (matchMediaFiles listing).Nodup :=
    (List.perm_insertionSort _ listing).nodup_iff.mpr hnd
  have hne : ∀ e ∈ matchMediaEdges (matchMediaFiles listing) hashOf, e.1 ≠ e.2 :=
    matchMediaEdges_ne _ hashOf hndf
  constructor
  · intro g hg
    obtain ⟨x, hx, hgx⟩ :=
      (mem_mediaComponents (matchMediaEdges (matchMediaFiles listing) hashOf) g).mp hg
    subst hgx
    obtain ⟨e, he, hxe⟩ :=
      (mem_nodesOf (matchMediaEdges (matchMediaFiles listing) hashOf) x).mp hx
    have hfuel : 1 ≤ (nodesOf (matchMediaEdges (matchMediaFiles listing) hashOf)).length :=
      List.length_pos.mpr (List.ne_nil_of_mem hx)
    have hxr := mem_componentOf_self (matchMediaEdges (matchMediaFiles listing) hashOf) x hx
    rcases hxe with h1 | h1
    · have hy : e.2 ∈ nodesOf (matchMediaEdges (matchMediaFiles listing) hashOf) :=
        (mem_nodesOf _ e.2).mpr ⟨e, he, Or.inr rfl⟩
      have hadj : adjacent (matchMediaEdges (matchMediaFiles listing) hashOf) x e.2 = true :=
        h1 ▸ (adjacent_of_mem _ e he).1
      have hyr : e.2 ∈ componentOf (matchMediaEdges (matchMediaFiles listing) hashOf) x := by
        rw [componentOf, List.mem_filter]
        exact ⟨hy, decide_eq_true_eq.mpr (neighbor_mem_reachable _ x e.2 hy hadj hfuel)⟩
      exact two_le_length_of_two_mem hxr hyr (h1 ▸ hne e he)
    · have hy : e.1 ∈ nodesOf (matchMediaEdges (matchMediaFiles listing) hashOf) :=
        (mem_nodesOf _ e.1).mpr ⟨e, he, Or.inl rfl⟩
      have hadj : adjacent (matchMediaEdges (matchMediaFiles listing) hashOf) x e.1 = true :=
        h1 ▸ (adjacent_of_mem _ e he).2
      have hyr : e.1 ∈ componentOf (matchMediaEdges (matchMediaFiles listing) hashOf) x := by
        rw [componentOf, List.mem_filter]
        exact ⟨hy, decide_eq_true_eq.mpr (neighbor_mem_reachable _ x e.1 hy hadj hfuel)⟩
      exact two_le_length_of_two_mem hxr hyr (fun hEq => hne e he (h1 ▸ hEq.symm ▸ rfl))
  · intro x hx g hg hxg
    obtain ⟨y, hy, hgy⟩ :=
      (mem_mediaComponents (matchMediaEdges (matchMediaFiles listing) hashOf) g).mp hg
    subst hgy
    have hxn := componentOf_subset (matchMediaEdges (matchMediaFiles listing) hashOf) y hxg
    obtain ⟨e, he, hxe⟩ :=
      (mem_nodesOf (matchMediaEdges (matchMediaFiles listing) hashOf) x).mp hxn
    rcases hxe with h1 | h1
    · exact (hx e he).1 h1.symm
    · exact (hx e he).2 h1.symm

/-- Witness for `matchMedia_no_singletons` on the concrete three-item
directory. -/
theorem matchMedia_no_singletons_witness :
    (["c.jpg", "a.jpg", "b.jpg"] : List String).Nodup ∧
      ((∀ g ∈ mediaComponents
            (matchMediaEdges (matchMediaFiles ["c.jpg", "a.jpg", "b.jpg"]) hashOf4),
          2 ≤ g.length) ∧
        ∀ x, (∀ e ∈ matchMediaEdges (matchMediaFiles ["c.jpg", "a.jpg", "b.jpg"]) hashOf4,
                e.1 ≠ x ∧ e.2 ≠ x) →
          ∀ g ∈ mediaComponents
              (matchMediaEdges (matchMediaFiles ["c.jpg", "a.jpg", "b.jpg"]) hashOf4),
            x ∉ g) :=
  ⟨by decide, matchMedia_no_singletons ["c.jpg", "a.jpg", "b.jpg"] hashOf4 (by decide)⟩

/-! ## Media clusterer: processing order and edge rule (C5) -/

/-- C5: the media clusterer processes the directory listing as a
lexicographically sorted permutation of it, and for indices `j < i` of the
sorted list the unordered pair `(files[i], files[j])` is an edge of the
similarity graph exactly when the sum of the three Hamming distances of the
corresponding hash codes is at or below the fixed threshold 40. -/
theorem matchMedia_order_and_threshold (listing : List String)
    (hashOf : String → MediaHashes) (hnd : listing.Nodup) (i j : Nat)
    (hj : j < i) (hi : i < (matchMediaFiles listing).length) :
    (matchMediaFiles listing).Pairwise (fun a b => lexLe a b = true) ∧
      (matchMediaFiles listing).Perm listing ∧
      (((matchMediaFiles listing).getD i "", (matchMediaFiles listing).getD j "") ∈
          matchMediaEdges (matchMediaFiles listing) hashOf ↔
        sumhash (hashOf ((matchMediaFiles listing).getD i ""))
            (hashOf ((matchMediaFiles listing).getD j "")) ≤ 40) := by
  have hperm : (matchMediaFiles listing).Perm listing :=
    List.perm_insertionSort _ listing
  have hndf : (matchMediaFiles listing).Nodup := hperm.nodup_iff.mpr hnd
  haveI htot : IsTotal String (fun a b => lexLe a b = true) :=
    ⟨fun a b => lexLeChars_total a.data b.data⟩
  haveI htrans : IsTrans String (fun a b => lexLe a b = true) :=
    ⟨fun a b c h1 h2 => lexLeChars_trans a.data b.data c.data h1 h2⟩
  refine ⟨List.sorted_insertionSort _ listing, hperm, ?_⟩
  constructor
  · intro hmem
    rw [mem_matchMediaEdges] at hmem
    obtain ⟨i2, j2, hi2, hj2, hc, hpair⟩ := hmem
    rw [Prod.mk.injEq] at hpair
    obtain ⟨hfst, hsnd⟩ := hpair
    have hii : i = i2 := getD_inj _ hndf hi hi2 hfst
    have hjj : j = j2 := getD_inj _ hndf (by omega) (by omega) hsnd
    subst hii
    subst hjj
    exact hc
  · intro hc
    rw [mem_matchMediaEdges]
    exact ⟨i, j, hi, hj, hc, rfl⟩

/-- Witness for `matchMedia_order_and_threshold` on a concrete two-file
directory at `i = 1`, `j = 0`. -/
theorem matchMedia_order_and_threshold_witness :
    ((["b.jpg", "a.jpg"] : List String).Nodup ∧ 0 < 1 ∧
        1 < (matchMediaFiles ["b.jpg", "a.jpg"]).length) ∧
      ((matchMediaFiles ["b.jpg", "a.jpg"]).Pairwise (fun a b => lexLe a b = true) ∧
        (matchMediaFiles ["b.jpg", "a.jpg"]).Perm ["b.jpg", "a.jpg"] ∧
        (((matchMediaFiles ["b.jpg", "a.jpg"]).getD 1 "",
            (matchMediaFiles ["b.jpg", "a.jpg"]).getD 0 "") ∈
            matchMediaEdges (matchMediaFiles ["b.jpg", "a.jpg"]) hashOf4 ↔
          sumhash (hashOf4 ((matchMediaFiles ["b.jpg", "a.jpg"]).getD 1 ""))
              (hashOf4 ((matchMediaFiles ["b.jpg", "a.jpg"]).getD 0 "")) ≤ 40)) :=
  ⟨⟨by decide, by decide, by decide⟩,
    matchMedia_order_and_threshold ["b.jpg", "a.jpg"] hashOf4 (by decide) 1 0
      (by decide) (by decide)⟩

/-! ## Media clusterer: transitive grouping (C4) -/

/-- C4 counterexample: the combined distances hypothesized by the claim,
`d(A,B) = 10`, `d(B,C) = 10`, `d(A,C) = 100`, cannot occur in the program:
the combined distance is a sum of three Hamming distances of equal-length
(64-bit) codes and therefore satisfies the triangle inequality, forcing
`d(A,C) ≤ 20`.  No three media items realize the claim's premise. -/
theorem media_distances_unrealizable :
    ¬ ∃ hA hB hC : MediaHashes, hA.wf ∧ hB.wf ∧ hC.wf ∧
        sumhash hA hB = 10 ∧ sumhash hB hC = 10 ∧ sumhash hA hC = 100 := by
  rintro ⟨hA, hB, hC, hwA, hwB, hwC, d1, d2, d3⟩
  have := sumhash_triangle hA hB hC hwA hwB hwC
  omega

/-- C4 (amended): transitive grouping via connectivity, with realizable
distances.  For three items with combined distances `d(A,B) = 30`,
`d(B,C) = 30`, `d(A,C) = 60` under threshold 40, the pair A–C alone does not
qualify (60 > 40), yet the emitted grouping is a single group containing all
three items: membership is transitive via graph connectivity, not
pairwise-only. -/
theorem matchMedia_transitive_grouping :
    sumhash hB4 hA4 = 30 ∧ sumhash hC4 hB4 = 30 ∧ sumhash hC4 hA4 = 60 ∧
      ¬ sumhash hC4 hA4 ≤ 40 ∧
      (mediaComponents
          (matchMediaEdges (matchMediaFiles ["c.jpg", "a.jpg", "b.jpg"]) hashOf4)).length = 1 ∧
      ∀ g ∈ mediaComponents
          (matchMediaEdges (matchMediaFiles ["c.jpg", "a.jpg", "b.jpg"]) hashOf4),
        "a.jpg" ∈ g ∧ "b.jpg" ∈ g ∧ "c.jpg" ∈ g ∧ g.length = 3 := by decide

/-! ## Media clusterer: behaviour on a corrupt file (C1) -/

/-- C1 (behaviour of the code at the failing input): over a media directory
of ten files of which `f5` is unreadable, `MatchMedia.run` does NOT skip the
corrupt item — `Image.open` raises, no handler exists, and the whole
clustering pass aborts with the error; no grouping artifact is produced.
Over the nine valid files alone the task completes and emits a single group
of all nine (they are identical images), which is what the claim expected
for the ten-file directory. -/
theorem matchMedia_corrupt_aborts :
    matchMediaRun mediaListing10 readImage10 = Except.error "UnidentifiedImageError" ∧
      ((matchMediaRun mediaListing9 readImage10).toOption.getD []).length = 1 ∧
      ∀ g ∈ (matchMediaRun mediaListing9 readImage10).toOption.getD [],
        g.length = 9 ∧ "f5" ∉ g :=
  ⟨rfl, by decide, by decide⟩

/-! ## FetchTweets (C7) -/

theorem fetchTweetsLoop_eq_take (count : Int) (ts : List Tweet) (i : Int) :
    fetchTweetsLoop count i ts = (ts.map Tweet.raw).take (count - i).toNat := by
  induction ts generalizing i with
  | nil => simp [fetchTweetsLoop]
  | cons t ts ih =>
    rw [fetchTweetsLoop]
    by_cases h : i + 1 > count
    · rw [if_pos h]
      have h0 : (count - i).toNat = 0 := by omega
      rw [h0]
      rfl
    · rw [if_neg h]
      rw [ih (i + 1)]
      have h1 : (count - i).toNat = (count - (i + 1)).toNat + 1 := by omega
      rw [List.map_cons, h1, List.take_succ_cons]

/-- C7 counterexample: no language filtering happens.  With the configured
language `"en"`, a record whose `lang` field is `"fr"` is still written to
the output record file: the source reads `lang = self.search['lang']` but
never applies it. -/
theorem fetchTweets_no_lang_filter :
    twFr.lang = "fr" ∧ ¬ twFr.lang = "en" ∧
      fetchTweetsRun "en" 5 [twFr] = ["tweet-fr-json"] :=
  ⟨rfl, by decide, rfl⟩

/-- C7 (amended): the record-fetching task writes exactly the first
`count` records of the search stream (so at most the requested count), one
JSON record per line, with every record written regardless of its language —
the configured language filter is read but not applied. -/
theorem fetchTweets_writes_take_count (lang : String) (count : Int)
    (stream : List Tweet) :
    fetchTweetsRun lang count stream = (stream.map Tweet.raw).take count.toNat ∧
      (fetchTweetsRun lang count stream).length ≤ count.toNat := by
  have h := fetchTweetsLoop_eq_take count stream 0
  have h0 : count - 0 = count := by omega
  rw [fetchTweetsRun, h, h0]
  exact ⟨rfl, List.length_take_le _ _⟩

/-! ## CountRetweets (C10) -/

theorem insortRight_length (l : List Retweet) (x : Retweet) :
    (insortRight l x).length = l.length + 1 := by
  induction l with
  | nil => rfl
  | cons y ys ih =>
    rw [insortRight]
    by_cases h : y.count < x.count
    · simp [h]
    · simp [h, ih]

theorem insortRight_perm (l : List Retweet) (x : Retweet) :
    (insortRight l x).Perm (x :: l) := by
  induction l with
  | nil => exact List.Perm.refl _
  | cons y ys ih =>
    rw [insortRight]
    by_cases h : y.count < x.count
    · rw [if_pos h]
    · rw [if_neg h]
      exact (ih.cons y).trans (List.Perm.swap x y ys)

theorem insortRight_sorted (l : List Retweet) (x : Retweet)
    (hs : l.Pairwise (fun a b => b.count ≤ a.count)) :
    (insortRight l x).Pairwise (fun a b => b.count ≤ a.count) := by
  induction l with
  | nil => simp [insortRight]
  | cons y ys ih =>
    rw [List.pairwise_cons] at hs
    obtain ⟨hy, hys⟩ := hs
    rw [insortRight]
    by_cases h : y.count < x.count
    · rw [if_pos h]
      rw [List.pairwise_cons]
      constructor
      · intro b hb
        rcases List.mem_cons.mp hb with rfl | hb2
        · omega
        · have := hy b hb2
          omega
      · exact List.pairwise_cons.mpr ⟨hy, hys⟩
    · rw [if_neg h]
      rw [List.pairwise_cons]
      constructor
      · intro b hb
        rcases List.mem_cons.mp ((insortRight_perm ys x).mem_iff.mp hb) with rfl | hb2
        · omega
        · exact hy b hb2
      · exact ih hys

theorem countRetweetsStep_inv (st : List Retweet × List String) (tw : Tweet)
    (h : RetweetInv st) : RetweetInv (countRetweetsStep st tw) := by
  obtain ⟨hlen, hnd, hsort, hids⟩ := h
  simp only [countRetweetsStep]
  by_cases h0 : tw.retweet_count = 0
  · rw [if_pos h0]
    exact ⟨hlen, hnd, hsort, hids⟩
  · rw [if_neg h0]
    by_cases hdup : tw.retweeted_status_id.getD tw.id_str ∈ st.2
    · rw [if_pos hdup]
      exact ⟨hlen, hnd, hsort, hids⟩
    · rw [if_neg hdup]
      have hperm := insortRight_perm st.1
        ⟨tw.retweeted_status_id.getD tw.id_str, tw.retweet_count⟩
      have hlen2 := insortRight_length st.1
        ⟨tw.retweeted_status_id.getD tw.id_str, tw.retweet_count⟩
      have hnd2 : ((insortRight st.1
          ⟨tw.retweeted_status_id.getD tw.id_str, tw.retweet_count⟩).map Retweet.id).Nodup := by
        have hpm := hperm.map Retweet.id
        rw [hpm.nodup_iff]
        rw [List.map_cons, List.nodup_cons]
        constructor
        · intro hmem
          rw [List.mem_map] at hmem
          obtain ⟨r, hr, hrid⟩ := hmem
          have hrid2 : r.id = tw.retweeted_status_id.getD tw.id_str := hrid
          exact hdup (hrid2 ▸ hids r hr)
        · exact hnd
      have hsort2 := insortRight_sorted st.1
        ⟨tw.retweeted_status_id.getD tw.id_str, tw.retweet_count⟩ hsort
      have hmem2 : ∀ r ∈ insortRight st.1
          ⟨tw.retweeted_status_id.getD tw.id_str, tw.retweet_count⟩,
          r.id ∈ tw.retweeted_status_id.getD tw.id_str :: st.2 := by
        intro r hr
        rcases List.mem_cons.mp (hperm.mem_iff.mp hr) with rfl | hr2
        · exact List.mem_cons_self _ _
        · exact List.mem_cons_of_mem _ (hids r hr2)
      by_cases hbig : 100 < (insortRight st.1
          ⟨tw.retweeted_status_id.getD tw.id_str, tw.retweet_count⟩).length
      · rw [if_pos hbig]
        have hne : insortRight st.1
            ⟨tw.retweeted_status_id.getD tw.id_str, tw.retweet_count⟩ ≠ [] := by
          intro hE
          rw [hE] at hbig
          simp at hbig
        have hlast : (insortRight st.1
              ⟨tw.retweeted_status_id.getD tw.id_str, tw.retweet_count⟩).getLastD ⟨"", 0⟩ =
            (insortRight st.1
              ⟨tw.retweeted_status_id.getD tw.id_str, tw.retweet_count⟩).getLast hne := by
          rw [List.getLastD_eq_getLast?, List.getLast?_eq_getLast _ hne]
          rfl
        have hdecomp := List.dropLast_append_getLast hne
        refine ⟨?_, ?_, ?_, ?_⟩
        · rw [List.length_dropLast]
          omega
        · exact hnd2.sublist ((List.dropLast_sublist _).map Retweet.id)
        · exact hsort2.sublist (List.dropLast_sublist _)
        · intro r hr
          have hrmem := (List.dropLast_sublist _).subset hr
          have hridmem := hmem2 r hrmem
          have hnodup2 := hnd2
          rw [← hdecomp, List.map_append, List.nodup_append] at hnodup2
          obtain ⟨-, -, hdisj⟩ := hnodup2
          have hrid_ne : r.id ≠ ((insortRight st.1
              ⟨tw.retweeted_status_id.getD tw.id_str, tw.retweet_count⟩).getLast hne).id := by
            intro hEq
            exact hdisj (List.mem_map_of_mem Retweet.id hr)
              (by rw [hEq, List.map_singleton]; exact List.mem_singleton.mpr rfl)
          rw [hlast]
          exact (List.mem_erase_of_ne hrid_ne).mpr hridmem
      · rw [if_neg hbig]
        exact ⟨Nat.not_lt.mp hbig, hnd2, hsort2, hmem2⟩

theorem foldl_countRetweetsStep_inv (tweets : List Tweet)
    (st : List Retweet × List String) (h : RetweetInv st) :
    RetweetInv (tweets.foldl countRetweetsStep st) := by
  induction tweets generalizing st with
  | nil => exact h
  | cons t ts ih => exact ih _ (countRetweetsStep_inv st t h)

/-- C10: the retweet-counting task's retained list always holds at most 100
entries with pairwise-distinct tweet ids, sorted by descending retweet
count (this holds after every processed prefix of the input, since `tweets`
ranges over all inputs); consequently the written artifact has at most 100
data rows, ordered from highest to lowest retweet count, with no tweet id
repeated. -/
theorem countRetweets_bounded_sorted_nodup (tweets : List Tweet) :
    (countRetweetsRows tweets).length ≤ 100 ∧
      ((countRetweetsRows tweets).map Prod.fst).Nodup ∧
      (countRetweetsRows tweets).Pairwise (fun a b => b.2 ≤ a.2) := by
  have h := foldl_countRetweetsStep_inv tweets ([], [])
    ⟨by simp, by simp, by simp, by simp⟩
  obtain ⟨hlen, hnd, hsort, -⟩ := h
  unfold countRetweetsRows countRetweetsState
  refine ⟨by simpa using hlen, ?_, ?_⟩
  · rw [List.map_map]
    exact hnd
  · rw [List.pairwise_map]
    exact hsort

/-! ## RunFlow idempotence (C2) -/

theorem runPlan_mem_out (plan : List TaskSpec) (fs : List String) :
    (∀ t ∈ plan, t.out ∈ (runPlan fs plan).1) ∧
      ∀ x ∈ fs, x ∈ (runPlan fs plan).1 := by
  induction plan generalizing fs with
  | nil => exact ⟨by simp, fun x hx => hx⟩
  | cons t ts ih =>
    rw [runPlan]
    by_cases h : t.out ∈ fs
    · rw [if_pos h]
      obtain ⟨h1, h2⟩ := ih fs
      refine ⟨?_, h2⟩
      intro u hu
      rcases List.mem_cons.mp hu with rfl | hu2
      · exact h2 _ h
      · exact h1 u hu2
    · rw [if_neg h]
      obtain ⟨h1, h2⟩ := ih (t.out :: fs)
      refine ⟨?_, fun x hx => h2 x (List.mem_cons_of_mem _ hx)⟩
      intro u hu
      rcases List.mem_cons.mp hu with rfl | hu2
      · exact h2 _ (List.mem_cons_self _ _)
      · exact h1 u hu2

theorem runPlan_skip_all (plan : List TaskSpec) (fs : List String)
    (h : ∀ t ∈ plan, t.out ∈ fs) : runPlan fs plan = (fs, 0) := by
  induction plan with
  | nil => rfl
  | cons t ts ih =>
    rw [runPlan, if_pos (h t (List.mem_cons_self t ts))]
    exact ih (fun u hu => h u (List.mem_cons_of_mem t hu))

/-- C2: task identity (here: the Target locator each task addresses) is a
pure function of the task's parameters — `flowPlan dp` is a function of the
partition key — so running the flow twice with identical parameters and no
intervening deletions addresses the same Targets both times, and the second
invocation executes zero task bodies: every task's completeness check finds
its Target already present, and the filesystem state is unchanged. -/
theorem runflow_idempotent (dp : String) (fs : List String) :
    (runPlan ((runPlan fs (flowPlan dp)).1) (flowPlan dp)).2 = 0 ∧
      (runPlan ((runPlan fs (flowPlan dp)).1) (flowPlan dp)).1 =
        (runPlan fs (flowPlan dp)).1 := by
  have h := (runPlan_mem_out (flowPlan dp) fs).1
  have h2 := runPlan_skip_all (flowPlan dp) _ h
  rw [h2]
  exact ⟨rfl, rfl⟩
